import Mathlib

/-!
Verification of the converter web application (file ingestion, extension
renaming, persistence and chat stream reassembly) against its specification.

The TypeScript sources are shallowly embedded: strings are Lean strings
(processed as lists of characters), byte buffers are lists of naturals
below 256, asynchronous reads are `Except` values, and the browser's
key-value store is a function from keys to optional values.
-/

namespace Converter

/-! ## JavaScript string splitting and array joining

`splitChar c` models `String.prototype.split` with the one-character
separator `c`: `"".split(c)` is `[""]`, separators at the borders produce
empty fragments.  `joinChar c` models `Array.prototype.join` with the
one-character separator `c`. -/

/-- Prepend a character to the first fragment, creating it if absent. -/
def consHead (x : Char) : List (List Char) → List (List Char)
  | [] => [[x]]
  | y :: ys => (x :: y) :: ys

/-- Model of `s.split(c)` for a single-character separator `c`. -/
def splitChar (c : Char) : List Char → List (List Char)
  | [] => [[]]
  | x :: xs => if x = c then [] :: splitChar c xs else consHead x (splitChar c xs)

/-- Model of `parts.join(c)` for a single-character separator `c`. -/
def joinChar (c : Char) : List (List Char) → List Char
  | [] => []
  | [t] => t
  | t :: ts => t ++ c :: joinChar c ts

/-! ## RenameMapper (App `handleFileProcessing` reader-onload path rewrite)

The source computes, from `originalPath` and the target extension:
`pathParts = originalPath.split('/')`, `nameAndExt = pathParts.pop()`,
`nameParts = nameAndExt.split('.')`, pops the last name part when there is
more than one, `newName = nameParts.join('.') + '.' + target`, and
`newPath = [...pathParts, newName].filter(Boolean).join('/')`. -/

/-- The popped leaf name: last fragment of the path split at slashes. -/
def leafOf (p : List Char) : List Char := (splitChar '/' p).getLastD []

/-- The name parts kept after popping the extension fragment
(`nameParts.pop()` happens only when `nameParts.length > 1`). -/
def keptNameParts (leaf : List Char) : List (List Char) :=
  let nameParts := splitChar '.' leaf
  if nameParts.length > 1 then nameParts.dropLast else nameParts

/-- The rebuilt leaf `nameParts.join('.') + '.' + target`. -/
def newLeaf (leaf e : List Char) : List Char := joinChar '.' (keptNameParts leaf) ++ '.' :: e

/-- The rebuilt path `[...pathParts, newName].filter(Boolean).join('/')`;
`filter(Boolean)` drops empty string segments. -/
def renamePathChars (p e : List Char) : List Char :=
  joinChar '/' (((splitChar '/' p).dropLast ++ [newLeaf (leafOf p) e]).filter
    (fun s => !s.isEmpty))

/-- The extension-rename mapping of the application, on strings. -/
def RenameMapper (p e : String) : String := (renamePathChars p.toList e.toList).asString

/-- Modelled from the spec invariant for comparison with the code: the new
path is the original path with only the final extension segment of the
leaf name replaced by the target extension and every directory segment
kept verbatim (no segment is dropped). -/
def specNewPathChars (p e : List Char) : List Char :=
  joinChar '/' ((splitChar '/' p).dropLast ++ [newLeaf (leafOf p) e])

/-! ## Data model

`ProcessedFile` mirrors `types.ts`; byte buffers (`ArrayBuffer`) are lists
of naturals below 256.  `FileHandle` models the browser `File` attributes
the app reads (`name`, `lastModified`, `size`). -/

structure ProcessedFile where
  id : String
  originalPath : String
  newPath : String
  content : List Nat
  originalType : String
  newType : String
deriving DecidableEq

structure FileHandle where
  name : String
  lastModified : Nat
  size : Nat
deriving DecidableEq

/-- A traversal item whose asynchronous `FileReader` read already resolved. -/
structure LoadedFile where
  path : String
  handle : FileHandle
  content : List Nat
deriving DecidableEq

instance {ε α : Type} [DecidableEq ε] [DecidableEq α] : DecidableEq (Except ε α)
  | .ok a, .ok b => if h : a = b then .isTrue (by rw [h]) else .isFalse (by simp [h])
  | .ok _, .error _ => .isFalse (by simp)
  | .error _, .ok _ => .isFalse (by simp)
  | .error e, .error f => if h : e = f then .isTrue (by rw [h]) else .isFalse (by simp [h])

/-- A traversal item whose read may fail (`reader.onerror`). -/
structure FileItem where
  path : String
  handle : FileHandle
  read : Except String (List Nat)
deriving DecidableEq

/-- `name.split('.').pop() || 'file'` (the empty fragment is falsy). -/
def getFileType (name : String) : String :=
  let t := (splitChar '.' name.toList).getLastD []
  if t.isEmpty then "file" else t.asString

/-- The record built in `reader.onload` (App `handleFileProcessing`). -/
def processItem (target : String) (it : LoadedFile) : ProcessedFile :=
  { id := it.path ++ "-" ++ toString it.handle.lastModified ++ "-" ++ toString it.handle.size
    originalPath := it.path
    newPath := RenameMapper it.path target
    content := it.content
    originalType := getFileType it.path
    newType := target }

/-- One per-file promise: resolves with the processed record, rejects with
the read error. -/
def readItem (target : String) (it : FileItem) : Except String ProcessedFile :=
  it.read.map (fun content => processItem target ⟨it.path, it.handle, content⟩)

/-! ## Promise.all

Two views of the join.  `promiseAllE` is the settled value of
`Promise.all`: the list of results, or the error of a rejected member.
`promiseAll` makes the completion schedule explicit: each promise writes
its result into its own pre-ordered slot when it completes (`order` lists
completions in time order); the join resolves once every slot is filled,
reading the slots in input order. -/

def promiseAllE {ε α : Type} : List (Except ε α) → Except ε (List α)
  | [] => .ok []
  | .ok a :: rest => (promiseAllE rest).map (fun l => a :: l)
  | .error e :: _ => .error e

def fillSlots {α : Type} {n : Nat} (res : Fin n → α) :
    List (Fin n) → (Fin n → Option α) → Fin n → Option α
  | [], slots => slots
  | i :: rest, slots => fillSlots res rest (fun j => if j = i then some (res i) else slots j)

def promiseAll {α : Type} {n : Nat} (res : Fin n → α) (order : List (Fin n)) :
    Option (List α) :=
  if (List.finRange n).all (fun i => (fillSlots res order (fun _ => none) i).isSome)
  then some ((List.finRange n).filterMap (fillSlots res order (fun _ => none)))
  else none

/-- App `handleFileProcessing`: early return on an empty item list, else
join all per-file reads; on success the new records replace the working
set, on any rejection the catch block leaves it untouched. -/
def handleFileProcessing (target : String) (prev : List ProcessedFile)
    (items : List FileItem) : List ProcessedFile :=
  if items.isEmpty then prev
  else
    match promiseAllE (items.map (readItem target)) with
    | .ok newFiles => newFiles
    | .error _ => prev

/-- `handleFileProcessing` with the completion schedule of the per-file
reads made explicit (all reads succeeding); `none` from the join means it
never settles, leaving the working set untouched. -/
def handleFileProcessingOrdered (target : String) (prev : List ProcessedFile)
    (items : List LoadedFile) (order : List (Fin items.length)) : List ProcessedFile :=
  if items.isEmpty then prev
  else
    match promiseAll (fun i => processItem target (items.get i)) order with
    | some newFiles => newFiles
    | none => prev

/-! ## EntryWalker (drop ingestion)

`Entry` is the tagged view of a `webkitGetAsEntry` result: a file entry
carries its `File` handle, a directory entry its (already drained)
children.  `readAllDirectoryEntries` models the batch-draining loop over a
directory reader, the reader being the finite sequence of batches its
successive `readEntries` calls deliver; `none` models a promise that never
resolves because the reader ran out of batches without an empty one. -/

def readAllDirectoryEntries {α : Type} : List (List α) → Option (List α)
  | [] => none
  | batch :: rest =>
    if batch.isEmpty then some []
    else (readAllDirectoryEntries rest).map (fun l => batch ++ l)

inductive Entry where
  | file (handle : FileHandle)
  | dir (dirName : String) (children : List Entry)

mutual

def getFilesFromEntry (pre : String) : Entry → List (FileHandle × String)
  | .file h => [(h, pre ++ h.name)]
  | .dir dirName children => getFilesFromEntries (pre ++ dirName ++ "/") children

def getFilesFromEntries (pre : String) : List Entry → List (FileHandle × String)
  | [] => []
  | e :: rest => getFilesFromEntry pre e ++ getFilesFromEntries pre rest

end

/-- `name.startsWith('.')` for the one-character search string. -/
def startsWithDot : List Char → Bool
  | '.' :: _ => true
  | _ => false

/-- `path.split('/').pop()` of an ingested relative path. -/
def leafNameChars (p : String) : List Char := (splitChar '/' p.toList).getLastD []

/-- A drop payload: hierarchical entries when `webkitGetAsEntry` is
available, otherwise the flat `dataTransfer.files` list. -/
inductive DropInput where
  | hierarchical (entries : List Entry)
  | flat (files : List FileHandle)

/-- `extractFilesFromDataTransfer`: traverse entries and drop hidden leaf
names, or fall back to the flat list filtered on hidden names and
zero-byte sizes. -/
def extractFilesFromDataTransfer : DropInput → List (FileHandle × String)
  | .hierarchical entries =>
    ((entries.map (getFilesFromEntry "")).flatten).filter
      (fun f => !startsWithDot (leafNameChars f.2))
  | .flat files =>
    (files.filter (fun h => !startsWithDot h.name.toList && decide (0 < h.size))).map
      (fun h => (h, h.name))

/-! ## Base64 and the persistence shim

`arrayBufferToBase64` builds a binary string whose character codes are the
buffer's bytes and calls `window.btoa`; `base64ToArrayBuffer` is the
`window.atob` inverse.  The two browser primitives are standard RFC 4648
base64 over latin-1 strings, modelled here directly on the byte list. -/

def base64Alphabet : List Char :=
  "ABCDEFGHIJKLMNOPQRSTUVWXYZabcdefghijklmnopqrstuvwxyz0123456789+/".toList

/-- Character for a six-bit group. -/
def encodeSextet (n : Nat) : Char := base64Alphabet.getD n 'A'

/-- Six-bit group of a base64 character. -/
def decodeB64Char (c : Char) : Nat := base64Alphabet.indexOf c

/-- `window.btoa(binaryStringOf bytes)`: encode three bytes into four
characters, padding a final group of one or two bytes with `=`. -/
def arrayBufferToBase64 : List Nat → List Char
  | [] => []
  | [a] => [encodeSextet (a / 4), encodeSextet (a % 4 * 16), '=', '=']
  | [a, b] => [encodeSextet (a / 4), encodeSextet (a % 4 * 16 + b / 16),
      encodeSextet (b % 16 * 4), '=']
  | a :: b :: c :: rest =>
    encodeSextet (a / 4) :: encodeSextet (a % 4 * 16 + b / 16) ::
      encodeSextet (b % 16 * 4 + c / 64) :: encodeSextet (c % 64) ::
      arrayBufferToBase64 rest

/-- `window.atob` back to the byte list. -/
def base64ToArrayBuffer : List Char → List Nat
  | c1 :: c2 :: c3 :: c4 :: rest =>
    if c3 = '=' then [decodeB64Char c1 * 4 + decodeB64Char c2 / 16]
    else if c4 = '=' then
      [decodeB64Char c1 * 4 + decodeB64Char c2 / 16,
       decodeB64Char c2 % 16 * 16 + decodeB64Char c3 / 4]
    else
      (decodeB64Char c1 * 4 + decodeB64Char c2 / 16) ::
        (decodeB64Char c2 % 16 * 16 + decodeB64Char c3 / 4) ::
        (decodeB64Char c3 % 4 * 64 + decodeB64Char c4) ::
        base64ToArrayBuffer rest
  | _ => []

/-- `SerializableFile` of `types.ts`: the record with base64 content. -/
structure SerializableFile where
  id : String
  originalPath : String
  newPath : String
  content : String
  originalType : String
  newType : String
deriving DecidableEq

def toSerializable (f : ProcessedFile) : SerializableFile :=
  ⟨f.id, f.originalPath, f.newPath, (arrayBufferToBase64 f.content).asString,
    f.originalType, f.newType⟩

def fromSerializable (sf : SerializableFile) : ProcessedFile :=
  ⟨sf.id, sf.originalPath, sf.newPath, base64ToArrayBuffer sf.content.toList,
    sf.originalType, sf.newType⟩

/-- The local key-value store.  `JSON.stringify`/`JSON.parse` around the
serializable records are modelled as the identity on that structure. -/
def Store : Type := String → Option (List SerializableFile)

def Store.setItem (s : Store) (k : String) (v : List SerializableFile) : Store :=
  fun q => if q = k then some v else s q

def Store.removeItem (s : Store) (k : String) : Store :=
  fun q => if q = k then none else s q

def workingSetKey : String := "fileConverterState"

/-- `saveStateToLocalStorage`: remove the key on an empty working set,
else write the serialized records under it. -/
def saveStateToLocalStorage (store : Store) (processedFiles : List ProcessedFile) : Store :=
  if processedFiles.isEmpty then store.removeItem workingSetKey
  else store.setItem workingSetKey (processedFiles.map toSerializable)

/-- `loadStateFromLocalStorage`: deserialize the stored records, empty
when the key is absent. -/
def loadStateFromLocalStorage (store : Store) : List ProcessedFile :=
  match store workingSetKey with
  | some sfs => sfs.map fromSerializable
  | none => []

/-- `handleClear` empties the working set; the persistence effect then
runs `saveStateToLocalStorage` on the new (empty) value. -/
def handleClearPersist (store : Store) : Store := saveStateToLocalStorage store []

/-! ## Chat stream reassembly (ChatSidebar `handleSendMessage`) -/

inductive Role where
  | user
  | model
deriving DecidableEq

structure Message where
  role : Role
  text : String
  image : Option String
deriving DecidableEq

/-- One loop iteration over a decoded chunk: the first chunk appends a
fresh model message, later chunks extend the last message if it has the
model role (an out-of-range index or other role leaves the list alone). -/
def streamStep (msgs : List Message) (isFirstChunk : Bool) (chunk : String) : List Message :=
  if isFirstChunk then msgs ++ [⟨.model, chunk, none⟩]
  else
    match msgs.getLast? with
    | some m =>
      if m.role = .model then msgs.dropLast ++ [⟨m.role, m.text ++ chunk, m.image⟩]
      else msgs
    | none => msgs

/-- The `while` loop over the decoded chunks of the response body. -/
def streamLoop (msgs : List Message) (isFirstChunk : Bool) : List String → List Message
  | [] => msgs
  | chunk :: rest => streamLoop (streamStep msgs isFirstChunk chunk) false rest

/-- Fallback chain `response.statusText || 'Failed to get a response from
the server.'`. -/
def fallbackText (statusText : String) : String :=
  if statusText = "" then "Failed to get a response from the server." else statusText

/-- `errorBody.error || response.statusText || default`, where `parsed` is
the awaited `response.json()` (`none` when parsing failed, in which case
the catch substitutes `{error: 'Failed to parse error response.'}`; the
inner option is the `error` field). -/
def httpErrorMessageTextOf (parsed : Option (Option String)) (statusText : String) : String :=
  match (match parsed with
         | none => some "Failed to parse error response."
         | some field => field) with
  | some e => if e = "" then fallbackText statusText else e
  | none => fallbackText statusText

/-- The chat endpoint's answer: an ok streaming body, or a non-success
status with its JSON body and status text. -/
inductive ChatResponse where
  | stream (chunks : List String)
  | httpError (parsed : Option (Option String)) (statusText : String)

/-- Response handling of `handleSendMessage` after the user message was
appended: reassemble the stream, or append the single synthetic error
message built in the catch block. -/
def handleChatResponse (msgs : List Message) : ChatResponse → List Message
  | .stream chunks => streamLoop msgs true chunks
  | .httpError parsed statusText =>
    msgs ++ [⟨.model, "Sorry, an error occurred: " ++
      httpErrorMessageTextOf parsed statusText, none⟩]

/-! ## Helper lemmas -/

theorem consHead_ne_nil (x : Char) (l : List (List Char)) : consHead x l ≠ [] := by
  cases l <;> simp [consHead]

theorem splitChar_ne_nil (c : Char) (s : List Char) : splitChar c s ≠ [] := by
  induction s with
  | nil => simp [splitChar]
  | cons x xs ih =>
    by_cases h : x = c
    · simp [splitChar, h]
    · simpa [splitChar, h] using consHead_ne_nil x (splitChar c xs)

/-- Fragments produced by `splitChar` never contain the separator. -/
theorem not_mem_of_mem_splitChar {c : Char} {s : List Char} {t : List Char}
    (h : t ∈ splitChar c s) : c ∉ t := by
  induction s generalizing t with
  | nil =>
    simp [splitChar] at h
    simp [h]
  | cons x xs ih =>
    by_cases hx : x = c
    · simp [splitChar, hx] at h
      rcases h with h | h
      · simp [h]
      · exact ih h
    · simp only [splitChar, if_neg hx] at h
      cases hs : splitChar c xs with
      | nil => exact absurd hs (splitChar_ne_nil c xs)
      | cons y ys =>
        rw [hs, consHead] at h
        rcases List.mem_cons.mp h with h | h
        · subst h
          intro hc
          rcases List.mem_cons.mp hc with hc | hc
          · exact hx hc.symm
          · exact ih (by rw [hs]; exact List.mem_cons_self y ys) hc
        · exact ih (by rw [hs]; exact List.mem_cons_of_mem y h)

/-- Characters of any fragment of `splitChar c s` come from `s`. -/
theorem mem_of_mem_splitChar {c : Char} {s t : List Char} {x : Char}
    (ht : t ∈ splitChar c s) (hx : x ∈ t) : x ∈ s := by
  induction s generalizing t with
  | nil =>
    simp [splitChar] at ht
    subst ht
    simp at hx
  | cons y ys ih =>
    by_cases hy : y = c
    · simp [splitChar, hy] at ht
      rcases ht with ht | ht
      · subst ht; simp at hx
      · exact List.mem_cons_of_mem y (ih ht hx)
    · simp only [splitChar, if_neg hy] at ht
      cases hs : splitChar c ys with
      | nil => exact absurd hs (splitChar_ne_nil c ys)
      | cons z zs =>
        rw [hs, consHead] at ht
        rcases List.mem_cons.mp ht with ht | ht
        · subst ht
          rcases List.mem_cons.mp hx with hx | hx
          · simp [hx]
          · exact List.mem_cons_of_mem y
              (ih (by rw [hs]; exact List.mem_cons_self z zs) hx)
        · exact List.mem_cons_of_mem y (ih (by rw [hs]; exact List.mem_cons_of_mem z ht) hx)

/-- Splitting a separator-free text yields a single fragment. -/
theorem splitChar_of_not_mem {c : Char} {t : List Char} (h : c ∉ t) :
    splitChar c t = [t] := by
  induction t with
  | nil => simp [splitChar]
  | cons x xs ih =>
    have hx : x ≠ c := fun hc => h (by simp [hc])
    have hxs : c ∉ xs := fun hc => h (List.mem_cons_of_mem x hc)
    simp [splitChar, hx, ih hxs, consHead]

/-- Splitting at an explicit separator occurrence after a clean fragment. -/
theorem splitChar_append_cons {c : Char} {a : List Char} (s : List Char)
    (h : c ∉ a) : splitChar c (a ++ c :: s) = a :: splitChar c s := by
  induction a with
  | nil => simp [splitChar]
  | cons x xs ih =>
    have hx : x ≠ c := fun hc => h (by simp [hc])
    have hxs : c ∉ xs := fun hc => h (List.mem_cons_of_mem x hc)
    simp [splitChar, hx, ih hxs, consHead]

theorem joinChar_cons (c : Char) (t : List Char) {ts : List (List Char)}
    (h : ts ≠ []) : joinChar c (t :: ts) = t ++ c :: joinChar c ts := by
  cases ts with
  | nil => exact absurd rfl h
  | cons u us => rfl

/-- `joinChar` after appending a final fragment. -/
theorem joinChar_concat (c : Char) (t : List Char) {l : List (List Char)}
    (h : l ≠ []) : joinChar c (l ++ [t]) = joinChar c l ++ c :: t := by
  induction l with
  | nil => exact absurd rfl h
  | cons u us ih =>
    cases us with
    | nil => rfl
    | cons v vs =>
      rw [List.cons_append, joinChar_cons c u (by simp), joinChar_cons c u (by simp),
        ih (by simp)]
      simp

/-- Every character of a join is the separator or comes from a fragment. -/
theorem mem_joinChar {c : Char} {l : List (List Char)} {x : Char}
    (h : x ∈ joinChar c l) : x = c ∨ ∃ t ∈ l, x ∈ t := by
  induction l with
  | nil => simp [joinChar] at h
  | cons t ts ih =>
    cases ts with
    | nil =>
      simp [joinChar] at h
      exact Or.inr ⟨t, by simp, h⟩
    | cons u us =>
      rw [joinChar_cons c t (by simp)] at h
      rcases List.mem_append.mp h with h | h
      · exact Or.inr ⟨t, by simp, h⟩
      · rcases List.mem_cons.mp h with h | h
        · exact Or.inl h
        · rcases ih h with h | ⟨v, hv, hxv⟩
          · exact Or.inl h
          · exact Or.inr ⟨v, List.mem_cons_of_mem t hv, hxv⟩

/-- Splitting undoes joining when every fragment is separator-free. -/
theorem splitChar_joinChar {c : Char} {l : List (List Char)} (hne : l ≠ [])
    (h : ∀ t ∈ l, c ∉ t) : splitChar c (joinChar c l) = l := by
  induction l with
  | nil => exact absurd rfl hne
  | cons t ts ih =>
    cases ts with
    | nil => simpa [joinChar] using splitChar_of_not_mem (h t (by simp))
    | cons u us =>
      rw [joinChar_cons c t (by simp)]
      rw [splitChar_append_cons _ (h t (by simp))]
      rw [ih (by simp) (fun v hv => h v (List.mem_cons_of_mem t hv))]

theorem getLastD_mem {α : Type} {l : List α} (d : α) (h : l ≠ []) : l.getLastD d ∈ l := by
  induction l with
  | nil => exact absurd rfl h
  | cons a as ih =>
    cases as with
    | nil => simp [List.getLastD]
    | cons b bs =>
      rw [List.getLastD_cons]
      exact List.mem_cons_of_mem a (ih (by simp))

theorem keptNameParts_ne_nil (leaf : List Char) : keptNameParts leaf ≠ [] := by
  unfold keptNameParts
  by_cases h : (splitChar '.' leaf).length > 1
  · simp only [h, if_true]
    intro hc
    have := congrArg List.length hc
    simp [List.length_dropLast] at this
    omega
  · simpa [h] using splitChar_ne_nil '.' leaf

theorem keptNameParts_dotfree {leaf : List Char} {t : List Char}
    (h : t ∈ keptNameParts leaf) : '.' ∉ t := by
  unfold keptNameParts at h
  by_cases hl : (splitChar '.' leaf).length > 1
  · simp only [hl, if_true] at h
    exact not_mem_of_mem_splitChar ((List.dropLast_sublist _).subset h)
  · simp only [hl, if_false] at h
    exact not_mem_of_mem_splitChar h

theorem newLeaf_ne_nil (leaf e : List Char) : newLeaf leaf e ≠ [] := by
  simp [newLeaf]

theorem not_slash_mem_newLeaf {leaf e : List Char} (hleaf : '/' ∉ leaf)
    (he : '/' ∉ e) : '/' ∉ newLeaf leaf e := by
  intro h
  rcases List.mem_append.mp h with h | h
  · rcases mem_joinChar h with h | ⟨t, ht, hmt⟩
    · exact absurd h (by decide)
    · have hsub : t ∈ splitChar '.' leaf := by
        unfold keptNameParts at ht
        by_cases hl : (splitChar '.' leaf).length > 1
        · simp only [hl, if_true] at ht
          exact (List.dropLast_sublist _).subset ht
        · simpa [hl] using ht
      exact hleaf (mem_of_mem_splitChar hsub hmt)
  · rcases List.mem_cons.mp h with h | h
    · exact absurd h (by decide)
    · exact he h

theorem splitChar_dot_newLeaf {e : List Char} (leaf : List Char) (he : '.' ∉ e) :
    splitChar '.' (newLeaf leaf e) = keptNameParts leaf ++ [e] := by
  unfold newLeaf
  rw [← joinChar_concat '.' e (keptNameParts_ne_nil leaf)]
  refine splitChar_joinChar (by simp) ?_
  intro t ht
  rcases List.mem_append.mp ht with ht | ht
  · exact keptNameParts_dotfree ht
  · rcases List.mem_singleton.mp ht with rfl
    exact he

/-- Re-applying the leaf rewrite with the same dot-free extension is stable. -/
theorem newLeaf_newLeaf {e : List Char} (leaf : List Char) (he : '.' ∉ e) :
    newLeaf (newLeaf leaf e) e = newLeaf leaf e := by
  have hsplit := splitChar_dot_newLeaf leaf he
  have hkept : keptNameParts (newLeaf leaf e) = keptNameParts leaf := by
    unfold keptNameParts
    rw [hsplit]
    have hlen : (keptNameParts leaf ++ [e]).length > 1 := by
      have := keptNameParts_ne_nil leaf
      have : (keptNameParts leaf).length ≠ 0 := by
        simpa [List.length_eq_zero] using this
      simp [List.length_append]
      omega
    simp only [hlen, if_true]
    exact List.dropLast_concat
  calc newLeaf (newLeaf leaf e) e
      = joinChar '.' (keptNameParts (newLeaf leaf e)) ++ '.' :: e := rfl
    _ = joinChar '.' (keptNameParts leaf) ++ '.' :: e := by rw [hkept]
    _ = newLeaf leaf e := rfl

theorem renamePathChars_idem {e : List Char} (p : List Char) (hdot : '.' ∉ e)
    (hslash : '/' ∉ e) : renamePathChars (renamePathChars p e) e = renamePathChars p e := by
  have hleaf_slashfree : '/' ∉ leafOf p :=
    not_mem_of_mem_splitChar (getLastD_mem [] (splitChar_ne_nil '/' p))
  have hnew_slashfree : '/' ∉ newLeaf (leafOf p) e :=
    not_slash_mem_newLeaf hleaf_slashfree hslash
  have hnew_ne : newLeaf (leafOf p) e ≠ [] := newLeaf_ne_nil _ _
  have hfilter_split : ((splitChar '/' p).dropLast ++ [newLeaf (leafOf p) e]).filter
      (fun s => !s.isEmpty) =
      ((splitChar '/' p).dropLast.filter (fun s => !s.isEmpty)) ++ [newLeaf (leafOf p) e] := by
    rw [List.filter_append]
    congr 1
    simp [List.filter, List.isEmpty_eq_false_iff_exists_mem]
    cases hc : newLeaf (leafOf p) e with
    | nil => exact absurd hc hnew_ne
    | cons a as => simp
  have hL_ne : ((splitChar '/' p).dropLast ++ [newLeaf (leafOf p) e]).filter
      (fun s => !s.isEmpty) ≠ [] := by
    rw [hfilter_split]; simp
  have hL_slashfree : ∀ t ∈ ((splitChar '/' p).dropLast ++ [newLeaf (leafOf p) e]).filter
      (fun s => !s.isEmpty), '/' ∉ t := by
    intro t ht
    have ht' := List.mem_of_mem_filter ht
    rcases List.mem_append.mp ht' with ht' | ht'
    · exact not_mem_of_mem_splitChar ((List.dropLast_sublist _).subset ht')
    · rcases List.mem_singleton.mp ht' with rfl
      exact hnew_slashfree
  have hsplit_out : splitChar '/' (renamePathChars p e) =
      ((splitChar '/' p).dropLast.filter (fun s => !s.isEmpty)) ++ [newLeaf (leafOf p) e] := by
    unfold renamePathChars
    rw [splitChar_joinChar hL_ne hL_slashfree, hfilter_split]
  have hleaf_out : leafOf (renamePathChars p e) = newLeaf (leafOf p) e := by
    show (splitChar '/' (renamePathChars p e)).getLastD [] = _
    rw [hsplit_out, List.getLastD_concat]
  have hkeep_singleton : List.filter (fun s : List Char => !s.isEmpty)
      [newLeaf (leafOf p) e] = [newLeaf (leafOf p) e] := by
    simp [List.filter, List.isEmpty_eq_false_iff_exists_mem]
    cases hc : newLeaf (leafOf p) e with
    | nil => exact absurd hc hnew_ne
    | cons a as => simp
  rw [show renamePathChars (renamePathChars p e) e = joinChar '/'
      (((splitChar '/' (renamePathChars p e)).dropLast ++
        [newLeaf (leafOf (renamePathChars p e)) e]).filter (fun s => !s.isEmpty)) from rfl]
  rw [hsplit_out, hleaf_out, List.dropLast_concat, newLeaf_newLeaf _ hdot]
  rw [List.filter_append, List.filter_filter]
  simp only [Bool.and_self]
  rw [hkeep_singleton, ← hfilter_split]
  rfl

theorem str_append_assoc (a b c : String) : a ++ b ++ c = a ++ (b ++ c) := by
  apply String.ext
  simp [String.data_append]

theorem str_join_cons (c : String) (cs : List String) :
    String.join (c :: cs) = c ++ String.join cs := by
  apply String.ext
  simp [String.data_join, String.data_append]

/-- After the first chunk created the trailing model message, every later
chunk extends that same message. -/
theorem streamLoop_extends_last (cs : List String) (msgs : List Message)
    (t : String) (img : Option String) :
    streamLoop (msgs ++ [⟨.model, t, img⟩]) false cs =
      msgs ++ [⟨.model, t ++ String.join cs, img⟩] := by
  induction cs generalizing t with
  | nil => simp [streamLoop, String.join]
  | cons c cs ih =>
    show streamLoop (streamStep (msgs ++ [⟨.model, t, img⟩]) false c) false cs = _
    rw [show streamStep (msgs ++ [⟨.model, t, img⟩]) false c =
        msgs ++ [⟨.model, t ++ c, img⟩] from by
      simp [streamStep, List.getLast?_concat, List.dropLast_concat]]
    rw [ih (t ++ c), str_join_cons, str_append_assoc]

theorem fillSlots_eq {α : Type} {n : Nat} (res : Fin n → α) (l : List (Fin n))
    (slots : Fin n → Option α) (i : Fin n) :
    fillSlots res l slots i = if i ∈ l then some (res i) else slots i := by
  induction l generalizing slots with
  | nil => simp [fillSlots]
  | cons j rest ih =>
    rw [show fillSlots res (j :: rest) slots =
      fillSlots res rest (fun k => if k = j then some (res j) else slots k) from rfl, ih]
    by_cases hr : i ∈ rest
    · simp [hr]
    · by_cases hij : i = j
      · subst hij
        simp [hr]
      · simp [hr, hij]

theorem filterMap_eq_map_of_forall_some {α β : Type} (f : α → Option β) (g : α → β)
    (l : List α) (h : ∀ a ∈ l, f a = some (g a)) : l.filterMap f = l.map g := by
  induction l with
  | nil => rfl
  | cons a rest ih =>
    rw [List.filterMap_cons, h a (by simp), List.map_cons,
      ih (fun b hb => h b (List.mem_cons_of_mem a hb))]

/-- When every promise eventually completes, the slot-collecting join
resolves with the results in input order, whatever the completion order. -/
theorem promiseAll_eq {α : Type} {n : Nat} (res : Fin n → α) (order : List (Fin n))
    (h : ∀ i : Fin n, i ∈ order) :
    promiseAll res order = some ((List.finRange n).map res) := by
  have hs : ∀ i, fillSlots res order (fun _ => none) i = some (res i) := fun i => by
    rw [fillSlots_eq]
    simp [h i]
  unfold promiseAll
  rw [if_pos (List.all_eq_true.mpr (fun i _ => by rw [hs i]; rfl))]
  rw [filterMap_eq_map_of_forall_some _ res _ (fun i _ => hs i)]

theorem promiseAllE_error_mem {ε α : Type} {l : List (Except ε α)} {e : ε}
    (h : Except.error e ∈ l) : ∃ e2, promiseAllE l = Except.error e2 := by
  induction l with
  | nil => simp at h
  | cons x rest ih =>
    cases x with
    | error e0 => exact ⟨e0, rfl⟩
    | ok a =>
      rcases List.mem_cons.mp h with h | h
      · simp at h
      · rcases ih h with ⟨e2, he2⟩
        exact ⟨e2, by simp [promiseAllE, he2, Except.map]⟩

theorem decodeB64Char_encodeSextet_fin :
    ∀ n : Fin 64, decodeB64Char (encodeSextet n.val) = n.val := by
  decide

theorem encodeSextet_ne_pad_fin : ∀ n : Fin 64, encodeSextet n.val ≠ '=' := by
  decide

theorem decodeB64Char_encodeSextet {n : Nat} (h : n < 64) :
    decodeB64Char (encodeSextet n) = n := decodeB64Char_encodeSextet_fin ⟨n, h⟩

theorem encodeSextet_ne_pad {n : Nat} (h : n < 64) : encodeSextet n ≠ '=' :=
  encodeSextet_ne_pad_fin ⟨n, h⟩

theorem base64_decode_cons (c1 c2 c3 c4 : Char) (rest : List Char) :
    base64ToArrayBuffer (c1 :: c2 :: c3 :: c4 :: rest) =
      if c3 = '=' then [decodeB64Char c1 * 4 + decodeB64Char c2 / 16]
      else if c4 = '=' then
        [decodeB64Char c1 * 4 + decodeB64Char c2 / 16,
         decodeB64Char c2 % 16 * 16 + decodeB64Char c3 / 4]
      else
        (decodeB64Char c1 * 4 + decodeB64Char c2 / 16) ::
          (decodeB64Char c2 % 16 * 16 + decodeB64Char c3 / 4) ::
          (decodeB64Char c3 % 4 * 64 + decodeB64Char c4) ::
          base64ToArrayBuffer rest := rfl

/-- Decoding inverts encoding on byte lists. -/
theorem base64_roundtrip : ∀ b : List Nat, (∀ x ∈ b, x < 256) →
    base64ToArrayBuffer (arrayBufferToBase64 b) = b
  | [], _ => rfl
  | [a], h => by
    have ha : a < 256 := h a (by simp)
    rw [show arrayBufferToBase64 [a] =
      [encodeSextet (a / 4), encodeSextet (a % 4 * 16), '=', '='] from rfl]
    rw [base64_decode_cons, if_pos rfl]
    rw [decodeB64Char_encodeSextet (by omega), decodeB64Char_encodeSextet (by omega)]
    congr 1
    omega
  | [a, b], h => by
    have ha : a < 256 := h a (by simp)
    have hb : b < 256 := h b (by simp)
    rw [show arrayBufferToBase64 [a, b] =
      [encodeSextet (a / 4), encodeSextet (a % 4 * 16 + b / 16),
        encodeSextet (b % 16 * 4), '='] from rfl]
    rw [base64_decode_cons, if_neg (encodeSextet_ne_pad (by omega)), if_pos rfl]
    rw [decodeB64Char_encodeSextet (by omega), decodeB64Char_encodeSextet (by omega),
      decodeB64Char_encodeSextet (by omega)]
    congr 1
    · omega
    congr 1
    omega
  | a :: b :: c :: rest, h => by
    have ha : a < 256 := h a (by simp)
    have hb : b < 256 := h b (by simp)
    have hc : c < 256 := h c (by simp)
    rw [show arrayBufferToBase64 (a :: b :: c :: rest) =
      encodeSextet (a / 4) :: encodeSextet (a % 4 * 16 + b / 16) ::
        encodeSextet (b % 16 * 4 + c / 64) :: encodeSextet (c % 64) ::
        arrayBufferToBase64 rest from rfl]
    rw [base64_decode_cons, if_neg (encodeSextet_ne_pad (by omega)),
      if_neg (encodeSextet_ne_pad (by omega))]
    rw [decodeB64Char_encodeSextet (by omega), decodeB64Char_encodeSextet (by omega),
      decodeB64Char_encodeSextet (by omega), decodeB64Char_encodeSextet (by omega)]
    rw [base64_roundtrip rest (fun x hx => h x
      (List.mem_cons_of_mem a (List.mem_cons_of_mem b (List.mem_cons_of_mem c hx))))]
    congr 1
    · omega
    congr 1
    · omega
    congr 1
    omega

theorem fromSerializable_toSerializable (f : ProcessedFile)
    (h : ∀ x ∈ f.content, x < 256) : fromSerializable (toSerializable f) = f := by
  cases f with
  | mk i op np content ot nt =>
    show ProcessedFile.mk _ _ _
      (base64ToArrayBuffer ((arrayBufferToBase64 content).asString).toList) _ _ = _
    rw [show ((arrayBufferToBase64 content).asString).toList =
      arrayBufferToBase64 content from rfl]
    rw [base64_roundtrip content h]
    rfl

/-! ## Claims -/

/-- C2, counterexample to the claim as stated: with the target extension
"a.b" (and likewise "a/b") the rename mapping is not idempotent, because
the second application splits inside the newly attached extension. -/
theorem renameMapper_not_idempotent_on_dotted_extension :
    RenameMapper (RenameMapper "x" "a.b") "a.b" ≠ RenameMapper "x" "a.b" ∧
    RenameMapper (RenameMapper "x" "a/b") "a/b" ≠ RenameMapper "x" "a/b" := by
  decide

/-- C2 (amended: the target extension contains neither a dot nor a slash):
for every relative path, applying the extension rename to its own output
with the same target extension yields the same result as applying it once. -/
theorem renameMapper_idempotent (p e : String) (hdot : '.' ∉ e.toList)
    (hslash : '/' ∉ e.toList) :
    RenameMapper (RenameMapper p e) e = RenameMapper p e := by
  show (renamePathChars (renamePathChars p.toList e.toList) e.toList).asString = _
  rw [renamePathChars_idem p.toList hdot hslash]
  rfl

/-- C2 witness: idempotence at a concrete path and extension. -/
theorem renameMapper_idempotent_witness :
    RenameMapper (RenameMapper "src/app/Button.tsx" "ts") "ts" =
      RenameMapper "src/app/Button.tsx" "ts" :=
  renameMapper_idempotent "src/app/Button.tsx" "ts" (by decide) (by decide)

/-- C8 (with every directory segment of the original path non-empty, as
browser-delivered relative paths are): the record's newPath is its
originalPath with only the final extension segment of the leaf name
replaced by the target extension and the directory segments preserved
verbatim. -/
theorem processItem_newPath_spec (target : String) (it : LoadedFile)
    (h : ∀ t ∈ (splitChar '/' it.path.toList).dropLast, t ≠ []) :
    (processItem target it).newPath =
      (specNewPathChars it.path.toList target.toList).asString := by
  show (renamePathChars it.path.toList target.toList).asString = _
  unfold renamePathChars specNewPathChars
  have hfilt : List.filter (fun s : List Char => !s.isEmpty)
      ((splitChar '/' it.path.toList).dropLast ++ [newLeaf (leafOf it.path.toList) target.toList]) =
      (splitChar '/' it.path.toList).dropLast ++ [newLeaf (leafOf it.path.toList) target.toList] := by
    apply List.filter_eq_self.mpr
    intro a ha
    rcases List.mem_append.mp ha with ha | ha
    · have := h a ha
      simpa using this
    · rcases List.mem_singleton.mp ha with rfl
      simpa using newLeaf_ne_nil (leafOf it.path.toList) target.toList
  rw [hfilt]

/-- C8 witness: the invariant at a concrete record. -/
theorem processItem_newPath_spec_witness :
    (processItem "ts" ⟨"src/app/Button.tsx", ⟨"Button.tsx", 3, 7⟩, [1, 2]⟩).newPath =
      (specNewPathChars "src/app/Button.tsx".toList "ts".toList).asString :=
  processItem_newPath_spec "ts" ⟨"src/app/Button.tsx", ⟨"Button.tsx", 3, 7⟩, [1, 2]⟩
    (by decide)

/-- C1 (for a stream that delivers at least one chunk): the reassembly
loop appends exactly one new model-role message, whose text is the
concatenation of all chunks in arrival order. -/
theorem streamLoop_appends_one_model_message (msgs : List Message)
    (chunks : List String) (h : chunks ≠ []) :
    streamLoop msgs true chunks = msgs ++ [⟨.model, String.join chunks, none⟩] := by
  cases chunks with
  | nil => exact absurd rfl h
  | cons c cs =>
    show streamLoop (streamStep msgs true c) false cs = _
    rw [show streamStep msgs true c = msgs ++ [⟨.model, c, none⟩] from by
      simp [streamStep]]
    rw [streamLoop_extends_last cs msgs c none, str_join_cons]

/-- C1 witness: the spec's example chunks produce the single message
"Hello world". -/
theorem streamLoop_appends_one_model_message_witness :
    streamLoop [] true ["Hel", "lo wo", "rld"] =
      [⟨.model, "Hello world", none⟩] := by
  rw [streamLoop_appends_one_model_message [] ["Hel", "lo wo", "rld"] (by decide)]
  decide

/-- C4: a directory reader delivering a finite run of non-empty batches
followed by the empty completion batch resolves to the concatenation of
the batches in order. -/
theorem readAllDirectoryEntries_drains {α : Type} (bs : List (List α))
    (h : ∀ b ∈ bs, b ≠ []) :
    readAllDirectoryEntries (bs ++ [[]]) = some bs.flatten := by
  induction bs with
  | nil => rfl
  | cons b rest ih =>
    have hb : b.isEmpty = false := by
      simpa [List.isEmpty_iff] using h b (by simp)
    simp [readAllDirectoryEntries, hb,
      ih (fun x hx => h x (List.mem_cons_of_mem b hx))]

/-- C4 witness: two non-empty batches then the empty batch yield their
concatenation. -/
theorem readAllDirectoryEntries_drains_witness :
    readAllDirectoryEntries [[1, 2], [3], ([] : List Nat)] = some [1, 2, 3] := by
  have := readAllDirectoryEntries_drains [[1, 2], [3]] (by decide)
  simpa using this

/-- C7: a non-success response whose JSON body is an error object makes
the handler append exactly one model-role message, whose text contains the
body's error string; no other message is touched. -/
theorem handleChatResponse_httpError_single_message (msgs : List Message)
    (x statusText : String) :
    ∃ m : Message,
      handleChatResponse msgs (.httpError (some (some x)) statusText) = msgs ++ [m] ∧
      m.role = .model ∧ ∃ pre post, m.text = pre ++ x ++ post := by
  refine ⟨⟨.model, "Sorry, an error occurred: " ++
    httpErrorMessageTextOf (some (some x)) statusText, none⟩, rfl, rfl, ?_⟩
  by_cases hx : x = ""
  · refine ⟨"Sorry, an error occurred: " ++
      httpErrorMessageTextOf (some (some x)) statusText, "", ?_⟩
    subst hx
    rw [String.append_empty, String.append_empty]
  · refine ⟨"Sorry, an error occurred: ", "", ?_⟩
    have : httpErrorMessageTextOf (some (some x)) statusText = x := by
      simp [httpErrorMessageTextOf, hx]
    rw [this, String.append_empty]

/-- C3, counterexample to the claim as stated: a zero-byte file delivered
through the hierarchical (directory-entry) traversal is not excluded from
the ingestion result. -/
theorem extractFiles_keeps_zero_byte_hierarchical_counterexample :
    ¬ (∀ x ∈ extractFilesFromDataTransfer
        (.hierarchical [.file ⟨"a.txt", 0, 0⟩]), 0 < x.1.size) := by
  intro h
  exact absurd (h (⟨"a.txt", 0, 0⟩, "a.txt") (by decide)) (by decide)

/-- C3 (amended): both traversal sources exclude entries whose leaf name
begins with a dot; the zero-byte exclusion applies in the flat file-list
fallback only. -/
theorem extractFiles_exclusions :
    (∀ (entries : List Entry) (x : FileHandle × String),
      x ∈ extractFilesFromDataTransfer (.hierarchical entries) →
        startsWithDot (leafNameChars x.2) = false) ∧
    (∀ (files : List FileHandle) (x : FileHandle × String),
      x ∈ extractFilesFromDataTransfer (.flat files) →
        startsWithDot x.1.name.toList = false ∧ 0 < x.1.size) := by
  constructor
  · intro entries x hx
    have := List.of_mem_filter hx
    simpa using this
  · intro files x hx
    rcases List.mem_map.mp hx with ⟨h0, hh0, rfl⟩
    have := List.of_mem_filter hh0
    simp only [Bool.and_eq_true, Bool.not_eq_true', decide_eq_true_eq] at this
    exact this

/-- C3 witness: the exclusions hold on a concrete hierarchical drop and a
concrete flat drop. -/
theorem extractFiles_exclusions_witness :
    startsWithDot (leafNameChars "d/x.txt") = false ∧
    (startsWithDot "y.md".toList = false ∧ 0 < 5) := by
  constructor
  · exact extractFiles_exclusions.1 [.dir "d" [.file ⟨"x.txt", 1, 4⟩, .file ⟨".hid", 1, 4⟩]]
      (⟨"x.txt", 1, 4⟩, "d/x.txt") (by decide)
  · exact extractFiles_exclusions.2 [⟨".env", 2, 5⟩, ⟨"y.md", 2, 5⟩, ⟨"z.md", 2, 0⟩]
      (⟨"y.md", 2, 5⟩, "y.md") (by decide)

/-- C5, counterexample to the claim as stated: with an empty item list the
pipeline returns early and the previously held working set survives, so
the result is not one record per item. -/
theorem handleFileProcessingOrdered_empty_counterexample :
    handleFileProcessingOrdered "ts" [⟨"a", "a", "a.ts", [], "file", "ts"⟩] [] [] ≠
      List.map (processItem "ts") [] := by
  decide

/-- C5 (amended: the item list is non-empty): whenever every per-file read
completes successfully, the resulting working set is one record per item
in input order, independent of the completion order of the reads. -/
theorem handleFileProcessingOrdered_input_order (target : String)
    (prev : List ProcessedFile) (items : List LoadedFile)
    (order : List (Fin items.length)) (hne : items ≠ [])
    (hall : ∀ i : Fin items.length, i ∈ order) :
    handleFileProcessingOrdered target prev items order =
      items.map (processItem target) := by
  unfold handleFileProcessingOrdered
  rw [if_neg (by simp [List.isEmpty_iff, hne]), promiseAll_eq _ _ hall]
  show (List.finRange items.length).map (fun i => processItem target (items.get i)) = _
  calc (List.finRange items.length).map (fun i => processItem target (items.get i))
      = ((List.finRange items.length).map items.get).map (processItem target) := by
        rw [List.map_map]
        rfl
    _ = items.map (processItem target) := by rw [List.finRange_map_get]

/-- C5 witness: two items whose reads complete in reverse order still
yield the records in input order. -/
theorem handleFileProcessingOrdered_input_order_witness :
    handleFileProcessingOrdered "ts" []
      [⟨"a.md", ⟨"a.md", 1, 2⟩, [10]⟩, ⟨"b.md", ⟨"b.md", 3, 4⟩, [20]⟩]
      [⟨1, by decide⟩, ⟨0, by decide⟩] =
      List.map (processItem "ts")
        [⟨"a.md", ⟨"a.md", 1, 2⟩, [10]⟩, ⟨"b.md", ⟨"b.md", 3, 4⟩, [20]⟩] :=
  handleFileProcessingOrdered_input_order "ts" [] _ _ (by decide) (by decide)

/-- C6: when any per-file read in the batch fails, no record of the batch
enters the working set and the previously held working set is returned
unchanged. -/
theorem handleFileProcessing_failure_keeps_prev (target : String)
    (prev : List ProcessedFile) (items : List FileItem) (it : FileItem)
    (err : String) (hmem : it ∈ items) (hread : it.read = .error err) :
    handleFileProcessing target prev items = prev := by
  have hne : items ≠ [] := by
    intro hcon
    subst hcon
    simp at hmem
  have hmm : Except.error err ∈ items.map (readItem target) :=
    List.mem_map.mpr ⟨it, hmem, by simp [readItem, hread, Except.map]⟩
  rcases promiseAllE_error_mem hmm with ⟨e2, he2⟩
  unfold handleFileProcessing
  rw [if_neg (by simp [List.isEmpty_iff, hne]), he2]

/-- C6 witness: a batch with one successful and one failing read leaves
the previous working set in place. -/
theorem handleFileProcessing_failure_keeps_prev_witness :
    handleFileProcessing "ts" [⟨"p", "p", "p.ts", [7], "file", "ts"⟩]
      [⟨"good.md", ⟨"good.md", 1, 1⟩, .ok [1]⟩,
       ⟨"bad.md", ⟨"bad.md", 2, 2⟩, .error "boom"⟩] =
      [⟨"p", "p", "p.ts", [7], "file", "ts"⟩] :=
  handleFileProcessing_failure_keeps_prev "ts" _ _
    ⟨"bad.md", ⟨"bad.md", 2, 2⟩, .error "boom"⟩ "boom" (by decide) rfl

/-- C9: saving an empty working set (in particular right after the clear
operation) removes the persisted key entirely, while a non-empty working
set is serialized and written under the key. -/
theorem saveState_key_presence :
    (∀ (store : Store) (files : List ProcessedFile),
      saveStateToLocalStorage store files workingSetKey =
        if files.isEmpty then none else some (files.map toSerializable)) ∧
    (∀ store : Store, handleClearPersist store workingSetKey = none) := by
  constructor
  · intro store files
    cases hf : files.isEmpty with
    | true => simp [saveStateToLocalStorage, hf, Store.removeItem]
    | false => simp [saveStateToLocalStorage, hf, Store.setItem]
  · intro store
    simp [handleClearPersist, saveStateToLocalStorage, Store.removeItem]

/-- C10: decoding inverts the base64 encoding on every byte buffer, and
therefore saving the working set and loading it back reproduces every
record (content included) unchanged. -/
theorem base64_and_persistence_roundtrip :
    (∀ b : List Nat, (∀ x ∈ b, x < 256) →
      base64ToArrayBuffer (arrayBufferToBase64 b) = b) ∧
    (∀ (store : Store) (files : List ProcessedFile),
      (∀ f ∈ files, ∀ x ∈ f.content, x < 256) →
      loadStateFromLocalStorage (saveStateToLocalStorage store files) = files) := by
  refine ⟨base64_roundtrip, ?_⟩
  intro store files h
  by_cases hemp : files = []
  · subst hemp
    simp [saveStateToLocalStorage, loadStateFromLocalStorage, Store.removeItem]
  · have hf : files.isEmpty = false := by simpa [List.isEmpty_iff] using hemp
    have hstore : Store.setItem store workingSetKey (files.map toSerializable) workingSetKey
        = some (files.map toSerializable) := by
      simp [Store.setItem]
    simp only [saveStateToLocalStorage, hf, Bool.false_eq_true, if_false,
      loadStateFromLocalStorage, hstore]
    rw [List.map_map]
    have hid : ∀ f ∈ files, (fromSerializable ∘ toSerializable) f = f :=
      fun f hf2 => fromSerializable_toSerializable f (h f hf2)
    calc files.map (fromSerializable ∘ toSerializable)
        = files.map id := List.map_congr_left hid
      _ = files := List.map_id files

/-- C10 witness: the byte roundtrip at a concrete buffer. -/
theorem base64_and_persistence_roundtrip_witness :
    base64ToArrayBuffer (arrayBufferToBase64 [0, 77, 255]) = [0, 77, 255] :=
  base64_and_persistence_roundtrip.1 [0, 77, 255] (by decide)

end Converter
